import Mathlib

/-!
Verification of the Catmull-Rom spline evaluator (`src/catmullRom.ts`).

The TypeScript code computes over IEEE-754 doubles.  We model a JavaScript
number idealized as a real number, except that the non-finite values
(`NaN`, `±Infinity`, and the `undefined` produced by an out-of-range array
read) are collapsed into a single absorbing element `none`:

  * `JsNum := Option ℝ`, `some x` a finite value, `none` non-finite;
  * arithmetic on `some` values is exact real arithmetic, and any operation
    touching `none` yields `none` (NaN propagation);
  * a division whose divisor is zero yields `none` (JS gives `NaN` for
    `0/0` and `±Infinity` otherwise — both non-finite);
  * `Math.sqrt` of a negative number yields `none` (JS: `NaN`);
  * `Math.pow x 0 = 1` for every `x` (as in JS), `Math.pow 0 y` for `y < 0`
    yields `none` (JS: `Infinity`), and a negative base yields `none`
    (the evaluator only ever raises nonnegative distances to a power);
  * comparisons with `none` are false (JS: every comparison with `NaN` is
    false; the guards of the evaluator only compare finite values or NaN).

Input control points are sequences of real numbers (spec §3: a `Point` is an
ordered sequence of real numbers), injected into `JsNum` coordinatewise.
-/

/-- A JavaScript number: `some x` is a finite double (idealized as a real),
`none` collapses the non-finite values NaN and ±Infinity (and the
`undefined` read off the end of an array, which behaves like NaN under
arithmetic). -/
abbrev JsNum : Type := Option ℝ

/-- Addition; `none` is absorbing. -/
def jadd : JsNum → JsNum → JsNum
  | some a, some b => some (a + b)
  | _, _ => none

/-- Subtraction; `none` is absorbing. -/
def jsub : JsNum → JsNum → JsNum
  | some a, some b => some (a - b)
  | _, _ => none

/-- Multiplication; `none` is absorbing. -/
def jmul : JsNum → JsNum → JsNum
  | some a, some b => some (a * b)
  | _, _ => none

open Classical in
/-- Division; `none` is absorbing, and a zero divisor yields a non-finite
result (JS: `0/0 = NaN`, `x/0 = ±Infinity`). -/
noncomputable def jdiv : JsNum → JsNum → JsNum
  | some a, some b => if b = 0 then none else some (a / b)
  | _, _ => none

/-- `Math.abs`; `none` is absorbing. -/
def jabs : JsNum → JsNum
  | some a => some |a|
  | none => none

open Classical in
/-- `Math.sqrt`; NaN on a negative argument, `none` absorbing. -/
noncomputable def jsqrt : JsNum → JsNum
  | some a => if a < 0 then none else some (Real.sqrt a)
  | none => none

open Classical in
/-- `Math.pow`.  `x ^ 0 = 1` for every `x` (including NaN), a negative base
with a fractional exponent gives NaN (the evaluator never produces one),
`0 ^ y` for `y < 0` gives `Infinity` (collapsed to `none`), and otherwise
the real power `Real.rpow`. -/
noncomputable def jpow : JsNum → JsNum → JsNum
  | b, some y =>
    if y = 0 then some 1
    else
      match b with
      | some x =>
        if x < 0 then none
        else if x = 0 then (if y < 0 then none else some 0)
        else some (x ^ y)
      | none => none
  | _, none => none

/-- The strict `<` comparison on JS numbers: false whenever either side is
non-finite NaN-like (JS: comparisons with NaN are false; the evaluator's
guards only ever see finite values or NaN). -/
def jlt : JsNum → JsNum → Prop
  | some a, some b => a < b
  | _, _ => False

@[simp] theorem jadd_some (a b : ℝ) : jadd (some a) (some b) = some (a + b) := rfl

@[simp] theorem jsub_some (a b : ℝ) : jsub (some a) (some b) = some (a - b) := rfl

@[simp] theorem jmul_some (a b : ℝ) : jmul (some a) (some b) = some (a * b) := rfl

@[simp] theorem jabs_some (a : ℝ) : jabs (some a) = some |a| := rfl

@[simp] theorem jlt_some (a b : ℝ) : jlt (some a) (some b) ↔ a < b := Iff.rfl

@[simp] theorem jadd_none_left (b : JsNum) : jadd none b = none := rfl

@[simp] theorem jadd_none_right (a : JsNum) : jadd a none = none := by
  cases a <;> rfl

@[simp] theorem jsub_none_left (b : JsNum) : jsub none b = none := rfl

@[simp] theorem jsub_none_right (a : JsNum) : jsub a none = none := by
  cases a <;> rfl

@[simp] theorem jlt_none_left (b : JsNum) : ¬ jlt none b := by
  cases b <;> exact fun h => h

@[simp] theorem jlt_none_right (a : JsNum) : ¬ jlt a none := by
  cases a <;> exact fun h => h

theorem jdiv_some_of_ne (a b : ℝ) (hb : b ≠ 0) :
    jdiv (some a) (some b) = some (a / b) := by
  simp [jdiv, hb]

theorem jdiv_some_zero (a : ℝ) : jdiv (some a) (some 0) = none := by
  simp [jdiv]

theorem jsqrt_some_of_nonneg (a : ℝ) (h : 0 ≤ a) :
    jsqrt (some a) = some (Real.sqrt a) := by
  simp [jsqrt, not_lt.mpr h]

/-- `Math.pow` of a nonnegative base and nonnegative exponent is the real
power, hence finite. -/
theorem jpow_some_of_nonneg (x y : ℝ) (hx : 0 ≤ x) (hy : 0 ≤ y) :
    jpow (some x) (some y) = some (x ^ y) := by
  rcases eq_or_lt_of_le hy with hy0 | hy0
  · simp [jpow, ← hy0, Real.rpow_zero]
  · rcases eq_or_lt_of_le hx with hx0 | hx0
    · simp [jpow, hy0.ne.symm, ← hx0, not_lt.mpr hy, Real.zero_rpow hy0.ne.symm]
    · simp [jpow, hy0.ne.symm, not_lt.mpr hx, hx0.ne.symm]

/-- A point: an ordered sequence of coordinates (`src/types.ts` `Point`).
Internally coordinates are JS numbers; input points carry real coordinates
and are injected with `Option.some`. -/
abbrev Point := List JsNum

/-- `DEFAULT_EPSILON` from `src/types.ts` (bundled in `demo/main.js`):
`1e-9`. -/
noncomputable def DEFAULT_EPSILON : ℝ := 1 / 1000000000

/-- `isMinSizeArray` from `src/types.ts` (bundled in `demo/main.js`):
`array.length >= length`. -/
def isMinSizeArray (array : List ℝ) (length : ℕ) : Bool :=
  array.length ≥ length

/-- Per-sample metadata: 0-based segment index and in-segment parameter `u`
(`SampleMeta` in `src/types.ts`). -/
structure SampleMeta where
  segment : ℕ
  u : JsNum

/-- The options record of `catmullRom`, with the defaults of the
destructuring pattern in `src/catmullRom.ts` lines 6–16. -/
structure CatmullRomOptions where
  samples : ℕ := 16
  alpha : Option ℝ := none
  parametrization : String := "centripetal"
  closed : Bool := false
  dimension : Option ℕ := none
  endpointMode : String := "duplicate"
  epsilon : ℝ := DEFAULT_EPSILON
  includeOriginal : Bool := false
  includeMeta : Bool := false

/-- The result record of `catmullRom` (`CatmullRomResult` in
`src/types.ts`): the sampled points, and — only when metadata was
requested — the parallel metadata list and the segment start indices. -/
structure CatmullRomResult where
  points : List Point
  meta : Option (List SampleMeta)
  segmentStartIndices : Option (List ℕ)

/-- The truthiness test `dimension && !path.every((p) => isMinSizeArray(p,
dimension))` guarding the dimension validation (`src/catmullRom.ts` line
27); `dimension = 0` is falsy in JS and skips the check. -/
def dimCheckFails (path : List (List ℝ)) (dimension : Option ℕ) : Bool :=
  match dimension with
  | none => false
  | some d => d != 0 && !(path.all fun p => isMinSizeArray p d)

/-- Resolution of the effective alpha (`src/catmullRom.ts` lines 31–45):
an explicit `alpha` wins; otherwise the `parametrization` name is mapped by
the `switch`, whose `default` (shared with `"centripetal"`) is `0.5`. -/
def resolveAlpha (alpha : Option ℝ) (parametrization : String) : ℝ :=
  match alpha with
  | some a => a
  | none =>
    if parametrization = "uniform" then 0
    else if parametrization = "chordal" then 1
    else 0.5

/-- Euclidean distance over the common prefix of the two coordinate lists
(`distance` in `src/catmullRom.ts` lines 138–146). -/
noncomputable def distance (a b : Point) : JsNum :=
  let dim := min a.length b.length
  let sum := (List.range dim).foldl
    (fun sum i =>
      let d := jsub (b.getD i none) (a.getD i none)
      jadd sum (jmul d d))
    (some 0)
  jsqrt sum

/-- `extrapolatePoint` (`src/catmullRom.ts` lines 148–154):
`out[i] = p0[i] + (p0[i] - p1[i])` for `i < dim` (the `epsilon` parameter
is unused in the source as well). -/
def extrapolatePoint (p0 p1 : Point) (dim : ℕ) (epsilon : ℝ) : Point :=
  (List.range dim).map fun i =>
    jadd (p0.getD i none) (jsub (p0.getD i none) (p1.getD i none))

open Classical in
/-- `lerpTimed` (`src/catmullRom.ts` lines 156–168): time-parametrized
linear interpolation of scalars; if `|tb - ta| < epsilon` the first
endpoint is returned unchanged. -/
noncomputable def lerpTimed (a b ta tb t : JsNum) (epsilon : ℝ) : JsNum :=
  let denom := jsub tb ta
  if jlt (jabs denom) (some epsilon) then a
  else
    let u := jdiv (jsub t ta) denom
    jadd (jmul (jsub (some 1) u) a) (jmul u b)

/-- `lerpVecTimed` (`src/catmullRom.ts` lines 170–184): componentwise
`lerpTimed` over `dim` coordinates. -/
noncomputable def lerpVecTimed (A B : Point) (ta tb t : JsNum) (dim : ℕ)
    (epsilon : ℝ) : Point :=
  (List.range dim).map fun i =>
    lerpTimed (A.getD i none) (B.getD i none) ta tb t epsilon

/-- `catmullRomAt` (`src/catmullRom.ts` lines 186–208): the nested
(Barry–Goldman) linear-interpolation evaluator. -/
noncomputable def catmullRomAt (p0 p1 p2 p3 : Point) (t0 t1 t2 t3 t : JsNum)
    (dim : ℕ) (epsilon : ℝ) : Point :=
  let A1 := lerpVecTimed p0 p1 t0 t1 t dim epsilon
  let A2 := lerpVecTimed p1 p2 t1 t2 t dim epsilon
  let A3 := lerpVecTimed p2 p3 t2 t3 t dim epsilon
  let B1 := lerpVecTimed A1 A2 t0 t2 t dim epsilon
  let B2 := lerpVecTimed A2 A3 t1 t3 t dim epsilon
  lerpVecTimed B1 B2 t1 t2 t dim epsilon

/-- The raw per-segment knot times (`src/catmullRom.ts` lines 100–104):
`t0 = 0`, and each later knot adds the chord distance raised to alpha. -/
structure RawKnots where
  t0 : JsNum
  t1 : JsNum
  t2 : JsNum
  t3 : JsNum

noncomputable def rawKnots (p0 p1 p2 p3 : Point) (alpha : ℝ) : RawKnots :=
  let t0 : JsNum := some 0
  let t1 := jadd t0 (jpow (distance p0 p1) (some alpha))
  let t2 := jadd t1 (jpow (distance p1 p2) (some alpha))
  let t3 := jadd t2 (jpow (distance p2 p3) (some alpha))
  ⟨t0, t1, t2, t3⟩

/-- The guarded knot times (`src/catmullRom.ts` lines 106–109):
each guard compares a delta of the ORIGINAL knots and bumps from the
ORIGINAL earlier knot:
`dt1 = t1 - t0 < eps ? t0 + eps : t1`,
`dt2 = t2 - t1 < eps ? t1 + eps : t2`,
`dt3 = t3 - t2 < eps ? t2 + eps : t3`. -/
structure GuardedKnots where
  dt1 : JsNum
  dt2 : JsNum
  dt3 : JsNum

open Classical in
noncomputable def guardKnots (k : RawKnots) (epsilon : ℝ) : GuardedKnots :=
  let dt1 := if jlt (jsub k.t1 k.t0) (some epsilon) then jadd k.t0 (some epsilon) else k.t1
  let dt2 := if jlt (jsub k.t2 k.t1) (some epsilon) then jadd k.t1 (some epsilon) else k.t2
  let dt3 := if jlt (jsub k.t3 k.t2) (some epsilon) then jadd k.t2 (some epsilon) else k.t3
  ⟨dt1, dt2, dt3⟩

/-- The wraparound index `(i + n) % n` used for closed curves
(`src/catmullRom.ts` lines 64–67). -/
def cIdx (n : ℕ) (i : ℤ) : ℕ := ((i + n) % n).toNat

/-- The four-point window of segment `i` (`src/catmullRom.ts` lines
87–98): modular indices into the real points for a closed curve,
sequential indices into the padded points for an open one. -/
def segWindow (closed : Bool) (paddedPts : List Point) (n i : ℕ) :
    Point × Point × Point × Point :=
  if closed then
    (paddedPts.getD (cIdx n ((i : ℤ) - 1)) [],
     paddedPts.getD (cIdx n (i : ℤ)) [],
     paddedPts.getD (cIdx n ((i : ℤ) + 1)) [],
     paddedPts.getD (cIdx n ((i : ℤ) + 2)) [])
  else
    (paddedPts.getD i [], paddedPts.getD (i + 1) [],
     paddedPts.getD (i + 2) [], paddedPts.getD (i + 3) [])

/-- The padded point list (`src/catmullRom.ts` lines 51–62). -/
def padPts (pts : List Point) (n dim : ℕ) (closed : Bool)
    (endpointMode : String) (epsilon : ℝ) : List Point :=
  if closed then pts
  else if endpointMode = "duplicate" then
    [pts.getD 0 []] ++ pts ++ [pts.getD (n - 1) []]
  else
    [extrapolatePoint (pts.getD 0 []) (pts.getD 1 []) dim epsilon] ++ pts ++
      [extrapolatePoint (pts.getD (n - 1) []) (pts.getD (n - 2) []) dim epsilon]

/-- The inner sampling loop of one segment (`src/catmullRom.ts` lines
112–120): for `s = 1..samples`, the sample time
`t = dt1 + (s * (dt2 - dt1)) / samples`, the metadata parameter
`u = (t - dt1) / (dt2 - dt1)`, and the evaluated point. -/
noncomputable def segSamples (p0 p1 p2 p3 : Point) (t0 : JsNum)
    (g : GuardedKnots) (samples dim : ℕ) (epsilon : ℝ) :
    List (Point × JsNum) :=
  (List.range samples).map fun j =>
    let s : ℕ := j + 1
    let t := jadd g.dt1 (jdiv (jmul (some (s : ℝ)) (jsub g.dt2 g.dt1)) (some (samples : ℝ)))
    let u := jdiv (jsub t g.dt1) (jsub g.dt2 g.dt1)
    (catmullRomAt p0 p1 p2 p3 t0 g.dt1 g.dt2 g.dt3 t dim epsilon, u)

/-- One segment's window, knot times and samples combined. -/
noncomputable def segData (closed : Bool) (paddedPts : List Point)
    (n samples dim : ℕ) (alpha epsilon : ℝ) (i : ℕ) :
    List (Point × JsNum) :=
  let w := segWindow closed paddedPts n i
  let k := rawKnots w.1 w.2.1 w.2.2.1 w.2.2.2 alpha
  let g := guardKnots k epsilon
  segSamples w.1 w.2.1 w.2.2.1 w.2.2.2 k.t0 g samples dim epsilon

/-- The accumulator of the main segment loop: output points, metadata and
segment start indices, in emission order. -/
structure LoopState where
  out : List Point
  meta : List SampleMeta
  ssi : List ℕ

/-- One iteration of the main segment loop (`src/catmullRom.ts` lines
82–120): push the current output length onto `segmentStartIndices` (when
metadata is requested), then push the segment's `samples` points and their
metadata. -/
noncomputable def loopStep (closed includeMeta : Bool) (paddedPts : List Point)
    (n samples dim : ℕ) (alpha epsilon : ℝ) (st : LoopState) (i : ℕ) :
    LoopState :=
  let sams := segData closed paddedPts n samples dim alpha epsilon i
  { out := st.out ++ sams.map Prod.fst,
    meta := if includeMeta then st.meta ++ sams.map (fun pr => ⟨i, pr.2⟩) else st.meta,
    ssi := if includeMeta then st.ssi ++ [st.out.length] else st.ssi }

/-- The effective dimension `dimension ?? path[0].length`
(`src/catmullRom.ts` line 47). -/
def effDim (path : List (List ℝ)) (o : CatmullRomOptions) : ℕ :=
  o.dimension.getD (path.headD []).length

/-- The clamped, injected control points `path.map((p) => p.slice(0, dim))`
(`src/catmullRom.ts` line 48), with real coordinates injected into
`JsNum`. -/
def effPts (path : List (List ℝ)) (o : CatmullRomOptions) : List Point :=
  path.map fun p => (p.take (effDim path o)).map some

/-- The padded point list of the call (`src/catmullRom.ts` lines 51–62). -/
def effPadded (path : List (List ℝ)) (o : CatmullRomOptions) : List Point :=
  padPts (effPts path o) (effPts path o).length (effDim path o) o.closed
    o.endpointMode o.epsilon

/-- `lastSegment = closed ? n : n - 1` (`src/catmullRom.ts` line 81). -/
def lastSeg (path : List (List ℝ)) (o : CatmullRomOptions) : ℕ :=
  if o.closed then (effPts path o).length else (effPts path o).length - 1

/-- The loop accumulator before the segment loop: when the curve is open
and `includeOriginal` is set, the first real point is prepended, tagged
segment 0 and `u = 0`, and its output index `out.length - 1 = 0` is pushed
onto `segmentStartIndices` (`src/catmullRom.ts` lines 69–79). -/
def initState (path : List (List ℝ)) (o : CatmullRomOptions) : LoopState :=
  if ¬o.closed ∧ o.includeOriginal then
    { out := [((effPts path o).getD 0 []).take (effDim path o)],
      meta := if o.includeMeta then [⟨0, some 0⟩] else [],
      ssi := if o.includeMeta then [0] else [] }
  else ⟨[], [], []⟩

/-- The loop accumulator after all segments (`src/catmullRom.ts` lines
82–120). -/
noncomputable def finalState (path : List (List ℝ)) (o : CatmullRomOptions) :
    LoopState :=
  (List.range (lastSeg path o)).foldl
    (loopStep o.closed o.includeMeta (effPadded path o) (effPts path o).length
      o.samples (effDim path o) (resolveAlpha o.alpha o.parametrization)
      o.epsilon)
    (initState path o)

/-- The assembled result of the main branch (`src/catmullRom.ts` lines
47–134).  The trailing original point, which the source pushes as the last
action of the final loop iteration (lines 122–127), is appended after the
loop here — the emission order is identical. -/
noncomputable def catmullRomMain (path : List (List ℝ))
    (o : CatmullRomOptions) : CatmullRomResult :=
  let final := finalState path o
  let outFull :=
    if ¬o.closed ∧ o.includeOriginal then
      final.out ++ [((effPts path o).getD ((effPts path o).length - 1) []).take (effDim path o)]
    else final.out
  let metaFull :=
    if ¬o.closed ∧ o.includeOriginal ∧ o.includeMeta then
      final.meta ++ [⟨lastSeg path o - 1, some 1⟩]
    else final.meta
  { points := outFull,
    meta := if o.includeMeta then some metaFull else none,
    segmentStartIndices := if o.includeMeta then some final.ssi else none }

/-- `catmullRom` (`src/catmullRom.ts` lines 4–135).  A thrown `Error` is an
`Except.error`. -/
noncomputable def catmullRom (path : List (List ℝ)) (o : CatmullRomOptions) :
    Except String CatmullRomResult :=
  if path.length < 2 then
    .ok { points := path.map fun p => p.map some,
          meta := if o.includeMeta then some [] else none,
          segmentStartIndices := if o.includeMeta then some [0] else none }
  else if dimCheckFails path o.dimension then
    .error "Dimension min size error"
  else
    .ok (catmullRomMain path o)

theorem segData_length (closed : Bool) (pp : List Point) (n samples dim : ℕ)
    (alpha eps : ℝ) (i : ℕ) :
    (segData closed pp n samples dim alpha eps i).length = samples := by
  simp [segData, segSamples]

theorem foldl_loopStep_out (closed im : Bool) (pp : List Point)
    (n samples dim : ℕ) (alpha eps : ℝ) (l : List ℕ) :
    ∀ st : LoopState,
      (l.foldl (loopStep closed im pp n samples dim alpha eps) st).out =
        st.out ++ l.flatMap
          (fun i => (segData closed pp n samples dim alpha eps i).map Prod.fst) := by
  induction l with
  | nil => intro st; simp
  | cons i l ih => intro st; simp [loopStep, ih, List.append_assoc]

theorem foldl_loopStep_out_length (closed im : Bool) (pp : List Point)
    (n samples dim : ℕ) (alpha eps : ℝ) (l : List ℕ) (st : LoopState) :
    (l.foldl (loopStep closed im pp n samples dim alpha eps) st).out.length =
      st.out.length + l.length * samples := by
  rw [foldl_loopStep_out]
  simp only [List.length_append, List.length_flatMap]
  congr 1
  have : (List.map (List.length ∘ fun i =>
      (segData closed pp n samples dim alpha eps i).map Prod.fst) l) =
      List.map (fun _ => samples) l := by
    apply List.map_congr_left
    intro i _
    simp [segData_length]
  rw [this]
  induction l with
  | nil => simp
  | cons j l ihl => simp [ihl, Nat.succ_mul, Nat.add_comm]

theorem foldl_loopStep_meta_true (closed : Bool) (pp : List Point)
    (n samples dim : ℕ) (alpha eps : ℝ) (l : List ℕ) :
    ∀ st : LoopState,
      (l.foldl (loopStep closed true pp n samples dim alpha eps) st).meta =
        st.meta ++ l.flatMap
          (fun i => (segData closed pp n samples dim alpha eps i).map
            (fun pr => ⟨i, pr.2⟩)) := by
  induction l with
  | nil => intro st; simp
  | cons i l ih => intro st; simp [loopStep, ih, List.append_assoc]

theorem foldl_loopStep_meta_false (closed : Bool) (pp : List Point)
    (n samples dim : ℕ) (alpha eps : ℝ) (l : List ℕ) :
    ∀ st : LoopState,
      (l.foldl (loopStep closed false pp n samples dim alpha eps) st).meta =
        st.meta := by
  induction l with
  | nil => intro st; simp
  | cons i l ih => intro st; simp [loopStep, ih]

theorem foldl_loopStep_ssi_false (closed : Bool) (pp : List Point)
    (n samples dim : ℕ) (alpha eps : ℝ) (l : List ℕ) :
    ∀ st : LoopState,
      (l.foldl (loopStep closed false pp n samples dim alpha eps) st).ssi =
        st.ssi := by
  induction l with
  | nil => intro st; simp
  | cons i l ih => intro st; simp [loopStep, ih]

theorem foldl_loopStep_ssi_true (closed : Bool) (pp : List Point)
    (n samples dim : ℕ) (alpha eps : ℝ) :
    ∀ (m : ℕ) (st : LoopState),
      ((List.range m).foldl (loopStep closed true pp n samples dim alpha eps) st).ssi =
        st.ssi ++ (List.range m).map (fun i => st.out.length + i * samples) := by
  intro m
  induction m with
  | zero => intro st; simp
  | succ m ih =>
    intro st
    rw [List.range_succ, List.foldl_append, List.map_append]
    simp only [List.foldl_cons, List.foldl_nil, List.map_cons, List.map_nil]
    show (loopStep closed true pp n samples dim alpha eps _ m).ssi = _
    rw [loopStep]
    simp only [if_true]
    rw [ih st, foldl_loopStep_out_length]
    simp [List.append_assoc, List.length_range]

theorem distance_map_some (a b : List ℝ) :
    ∃ d : ℝ, 0 ≤ d ∧ distance (a.map some) (b.map some) = some d := by
  have key : ∀ (l : List ℕ), (∀ i ∈ l, i < a.length ∧ i < b.length) →
      ∀ s : ℝ, 0 ≤ s →
      ∃ r : ℝ, 0 ≤ r ∧
        l.foldl (fun sum i =>
          let d := jsub ((b.map some).getD i none) ((a.map some).getD i none)
          jadd sum (jmul d d)) (some s) = some r := by
    intro l
    induction l with
    | nil => exact fun _ s hs => ⟨s, hs, rfl⟩
    | cons i l ih =>
      intro hmem s hs
      obtain ⟨hia, hib⟩ := hmem i (List.mem_cons_self i l)
      have ha : (a.map some).getD i none = some (a.get ⟨i, hia⟩) := by
        rw [List.getD_eq_getElem?_getD, List.getElem?_map,
          List.getElem?_eq_getElem hia]
        rfl
      have hb : (b.map some).getD i none = some (b.get ⟨i, hib⟩) := by
        rw [List.getD_eq_getElem?_getD, List.getElem?_map,
          List.getElem?_eq_getElem hib]
        rfl
      have hstep : 0 ≤ s + (b.get ⟨i, hib⟩ - a.get ⟨i, hia⟩) *
          (b.get ⟨i, hib⟩ - a.get ⟨i, hia⟩) :=
        add_nonneg hs (mul_self_nonneg _)
      obtain ⟨r, hr, he⟩ := ih (fun j hj => hmem j (List.mem_cons_of_mem i hj)) _ hstep
      refine ⟨r, hr, ?_⟩
      rw [List.foldl_cons]
      simp only [ha, hb, jsub_some, jmul_some, jadd_some]
      exact he
  obtain ⟨r, hr, he⟩ := key (List.range (min a.length b.length))
    (fun i hi => by
      rw [List.mem_range] at hi
      exact ⟨lt_of_lt_of_le hi (min_le_left _ _), lt_of_lt_of_le hi (min_le_right _ _)⟩)
    0 le_rfl
  refine ⟨Real.sqrt r, Real.sqrt_nonneg r, ?_⟩
  rw [distance]
  simp only [List.length_map]
  rw [he, jsqrt_some_of_nonneg r hr]

theorem rawKnots_real (q0 q1 q2 q3 : List ℝ) (alpha : ℝ) (ha : 0 ≤ alpha) :
    ∃ a1 a2 a3 : ℝ, 0 ≤ a1 ∧ a1 ≤ a2 ∧ a2 ≤ a3 ∧
      rawKnots (q0.map some) (q1.map some) (q2.map some) (q3.map some) alpha =
        ⟨some 0, some a1, some a2, some a3⟩ := by
  obtain ⟨d01, hd01, e01⟩ := distance_map_some q0 q1
  obtain ⟨d12, hd12, e12⟩ := distance_map_some q1 q2
  obtain ⟨d23, hd23, e23⟩ := distance_map_some q2 q3
  refine ⟨0 + d01 ^ alpha, 0 + d01 ^ alpha + d12 ^ alpha,
    0 + d01 ^ alpha + d12 ^ alpha + d23 ^ alpha, ?_, ?_, ?_, ?_⟩
  · have := Real.rpow_nonneg hd01 alpha
    linarith
  · have := Real.rpow_nonneg hd12 alpha
    linarith
  · have := Real.rpow_nonneg hd23 alpha
    linarith
  · rw [rawKnots]
    simp only [e01, e12, e23, jpow_some_of_nonneg _ _ hd01 ha,
      jpow_some_of_nonneg _ _ hd12 ha, jpow_some_of_nonneg _ _ hd23 ha,
      jadd_some]

theorem guardKnots_bounds (a1 a2 a3 eps : ℝ) (h01 : 0 ≤ a1) (h12 : a1 ≤ a2)
    (h23 : a2 ≤ a3) (he : 0 < eps) :
    ∃ b1 b2 b3 : ℝ,
      guardKnots ⟨some 0, some a1, some a2, some a3⟩ eps =
        ⟨some b1, some b2, some b3⟩ ∧
      eps ≤ b1 ∧ a1 + eps ≤ b2 ∧ a2 + eps ≤ b3 ∧ b1 ≤ b2 ∧ b2 ≤ b3 := by
  rw [guardKnots]
  simp only [jsub_some, jlt_some, jadd_some]
  split_ifs with h1 h2 h3 h3 h2 h3 h3 <;>
    exact ⟨_, _, _, rfl, by linarith, by linarith, by linarith, by linarith,
      by linarith⟩

theorem lerpTimed_total (a b ta tb t eps : ℝ) (he : 0 < eps) :
    ∃ r : ℝ, lerpTimed (some a) (some b) (some ta) (some tb) (some t) eps =
      some r := by
  rw [lerpTimed]
  simp only [jsub_some, jabs_some, jlt_some]
  split_ifs with h
  · exact ⟨a, rfl⟩
  · have hne : tb - ta ≠ 0 := by
      intro h0
      apply h
      rw [h0]
      simpa using he
    rw [jdiv_some_of_ne _ _ hne]
    refine ⟨(1 - (t - ta) / (tb - ta)) * a + (t - ta) / (tb - ta) * b, ?_⟩
    simp only [jsub_some, jmul_some, jadd_some]

theorem lerpVecTimed_getD (A B : Point) (ta tb t : JsNum) (dim : ℕ)
    (eps : ℝ) (i : ℕ) (hi : i < dim) :
    (lerpVecTimed A B ta tb t dim eps).getD i none =
      lerpTimed (A.getD i none) (B.getD i none) ta tb t eps := by
  rw [lerpVecTimed, List.getD_eq_getElem?_getD, List.getElem?_map]
  rw [List.getElem?_eq_getElem (by simpa using hi : i < (List.range dim).length)]
  simp

theorem lerpVecTimed_total (A B : Point) (dim : ℕ) (ta tb t eps : ℝ)
    (he : 0 < eps)
    (hA : ∀ i < dim, ∃ x : ℝ, A.getD i none = some x)
    (hB : ∀ i < dim, ∃ x : ℝ, B.getD i none = some x) :
    ∀ i < dim, ∃ x : ℝ,
      (lerpVecTimed A B (some ta) (some tb) (some t) dim eps).getD i none =
        some x := by
  intro i hi
  obtain ⟨x, hx⟩ := hA i hi
  obtain ⟨y, hy⟩ := hB i hi
  rw [lerpVecTimed_getD _ _ _ _ _ _ _ _ hi, hx, hy]
  exact lerpTimed_total x y ta tb t eps he

theorem catmullRomAt_total (p0 p1 p2 p3 : Point) (t0 t1 t2 t3 t : ℝ)
    (dim : ℕ) (eps : ℝ) (he : 0 < eps)
    (h0 : ∀ i < dim, ∃ x : ℝ, p0.getD i none = some x)
    (h1 : ∀ i < dim, ∃ x : ℝ, p1.getD i none = some x)
    (h2 : ∀ i < dim, ∃ x : ℝ, p2.getD i none = some x)
    (h3 : ∀ i < dim, ∃ x : ℝ, p3.getD i none = some x) :
    ∀ c ∈ catmullRomAt p0 p1 p2 p3 (some t0) (some t1) (some t2) (some t3)
        (some t) dim eps, ∃ x : ℝ, c = some x := by
  intro c hc
  rw [catmullRomAt] at hc
  have hA1 := lerpVecTimed_total p0 p1 dim t0 t1 t eps he h0 h1
  have hA2 := lerpVecTimed_total p1 p2 dim t1 t2 t eps he h1 h2
  have hA3 := lerpVecTimed_total p2 p3 dim t2 t3 t eps he h2 h3
  have hB1 := lerpVecTimed_total _ _ dim t0 t2 t eps he hA1 hA2
  have hB2 := lerpVecTimed_total _ _ dim t1 t3 t eps he hA2 hA3
  rw [lerpVecTimed] at hc
  obtain ⟨i, hi, rfl⟩ := List.mem_map.mp hc
  rw [List.mem_range] at hi
  obtain ⟨x, hx⟩ := hB1 i hi
  obtain ⟨y, hy⟩ := hB2 i hi
  rw [hx, hy]
  exact lerpTimed_total x y t1 t2 t eps he

/-- A point whose coordinates are finite reals, of length `dim`. -/
def RealPtOf (dim : ℕ) (P : Point) : Prop :=
  ∃ q : List ℝ, P = q.map some ∧ q.length = dim

theorem getD_map_some (q : List ℝ) (i : ℕ) (hi : i < q.length) :
    (q.map some).getD i none = some (q.getD i 0) := by
  rw [List.getD_eq_getElem?_getD, List.getElem?_map,
    List.getElem?_eq_getElem hi, List.getD_eq_getElem q 0 hi]
  rfl

theorem realPtOf_getD {dim : ℕ} {P : Point} (h : RealPtOf dim P) :
    ∀ i < dim, ∃ x : ℝ, P.getD i none = some x := by
  obtain ⟨q, rfl, hq⟩ := h
  intro i hi
  exact ⟨q.getD i 0, getD_map_some q i (hq ▸ hi)⟩

theorem effPts_length (path : List (List ℝ)) (o : CatmullRomOptions) :
    (effPts path o).length = path.length := by
  simp [effPts]

theorem effPts_realPt (path : List (List ℝ)) (o : CatmullRomOptions)
    (hdim : ∀ p ∈ path, effDim path o ≤ p.length) :
    ∀ P ∈ effPts path o, RealPtOf (effDim path o) P := by
  intro P hP
  rw [effPts] at hP
  obtain ⟨p, hp, rfl⟩ := List.mem_map.mp hP
  exact ⟨p.take (effDim path o), rfl, by
    simp [List.length_take, Nat.min_eq_left (hdim p hp)]⟩

theorem extrapolatePoint_real (q0 q1 : List ℝ) (dim : ℕ) (eps : ℝ)
    (h0 : dim ≤ q0.length) (h1 : dim ≤ q1.length) :
    extrapolatePoint (q0.map some) (q1.map some) dim eps =
      ((List.range dim).map
        (fun i => q0.getD i 0 + (q0.getD i 0 - q1.getD i 0))).map some := by
  rw [extrapolatePoint, List.map_map]
  apply List.map_congr_left
  intro i hi
  rw [List.mem_range] at hi
  rw [getD_map_some q0 i (lt_of_lt_of_le hi h0),
    getD_map_some q1 i (lt_of_lt_of_le hi h1)]
  rfl

theorem getD_mem {α : Type} (l : List α) (i : ℕ) (d : α) (hi : i < l.length) :
    l.getD i d ∈ l := by
  rw [List.getD_eq_getElem l d hi]
  exact List.getElem_mem hi

theorem effPadded_realPt (path : List (List ℝ)) (o : CatmullRomOptions)
    (h2 : 2 ≤ path.length)
    (hdim : ∀ p ∈ path, effDim path o ≤ p.length) :
    ∀ P ∈ effPadded path o, RealPtOf (effDim path o) P := by
  have hpts := effPts_realPt path o hdim
  have hlen : (effPts path o).length = path.length := effPts_length path o
  have hmem0 : (effPts path o).getD 0 [] ∈ effPts path o :=
    getD_mem _ _ _ (by omega)
  have hmem1 : (effPts path o).getD 1 [] ∈ effPts path o :=
    getD_mem _ _ _ (by omega)
  have hmemN : (effPts path o).getD ((effPts path o).length - 1) [] ∈ effPts path o :=
    getD_mem _ _ _ (by omega)
  have hmemN2 : (effPts path o).getD ((effPts path o).length - 2) [] ∈ effPts path o :=
    getD_mem _ _ _ (by omega)
  intro P hP
  rw [effPadded, padPts] at hP
  split_ifs at hP with hc hdup
  · exact hpts P hP
  · simp only [List.mem_append, List.mem_singleton, List.mem_cons,
      List.not_mem_nil, or_false] at hP
    rcases hP with (h | h) | h
    · exact h ▸ hpts _ hmem0
    · exact hpts P h
    · exact h ▸ hpts _ hmemN
  · simp only [List.mem_append, List.mem_singleton, List.mem_cons,
      List.not_mem_nil, or_false] at hP
    rcases hP with (h | h) | h
    · obtain ⟨q0, he0, hq0⟩ := hpts _ hmem0
      obtain ⟨q1, he1, hq1⟩ := hpts _ hmem1
      subst h
      rw [he0, he1, extrapolatePoint_real q0 q1 _ _ (le_of_eq hq0.symm)
        (le_of_eq hq1.symm)]
      exact ⟨_, rfl, by simp⟩
    · exact hpts P h
    · obtain ⟨q0, he0, hq0⟩ := hpts _ hmemN
      obtain ⟨q1, he1, hq1⟩ := hpts _ hmemN2
      subst h
      rw [he0, he1, extrapolatePoint_real q0 q1 _ _ (le_of_eq hq0.symm)
        (le_of_eq hq1.symm)]
      exact ⟨_, rfl, by simp⟩

theorem cIdx_lt (n : ℕ) (hn : 0 < n) (z : ℤ) : cIdx n z < n := by
  rw [cIdx]
  have h1 : (0 : ℤ) < (n : ℤ) := by exact_mod_cast hn
  have h2 := Int.emod_lt_of_pos (z + n) h1
  have h3 := Int.emod_nonneg (z + n) (ne_of_gt h1)
  omega

theorem effPadded_length_open (path : List (List ℝ)) (o : CatmullRomOptions)
    (hc : o.closed = false) :
    (effPadded path o).length = path.length + 2 := by
  rw [effPadded, padPts]
  simp only [hc, Bool.false_eq_true, if_false]
  split_ifs <;>
    (simp only [List.length_append, List.length_cons, List.length_nil,
      effPts_length]; omega)

theorem effPadded_closed (path : List (List ℝ)) (o : CatmullRomOptions)
    (hc : o.closed = true) : effPadded path o = effPts path o := by
  rw [effPadded, padPts, if_pos hc]

theorem segWindow_realPt (path : List (List ℝ)) (o : CatmullRomOptions)
    (h2 : 2 ≤ path.length)
    (hdim : ∀ p ∈ path, effDim path o ≤ p.length)
    (i : ℕ) (hi : i < lastSeg path o) :
    RealPtOf (effDim path o)
        (segWindow o.closed (effPadded path o) (effPts path o).length i).1 ∧
      RealPtOf (effDim path o)
        (segWindow o.closed (effPadded path o) (effPts path o).length i).2.1 ∧
      RealPtOf (effDim path o)
        (segWindow o.closed (effPadded path o) (effPts path o).length i).2.2.1 ∧
      RealPtOf (effDim path o)
        (segWindow o.closed (effPadded path o) (effPts path o).length i).2.2.2 := by
  have hpad := effPadded_realPt path o h2 hdim
  rw [segWindow]
  cases hc : o.closed with
  | true =>
    have hlen : (effPadded path o).length = (effPts path o).length := by
      rw [effPadded_closed path o hc]
    have hn : 0 < (effPts path o).length := by rw [effPts_length]; omega
    simp only [if_pos rfl]
    refine ⟨hpad _ (getD_mem _ _ _ ?_), hpad _ (getD_mem _ _ _ ?_),
      hpad _ (getD_mem _ _ _ ?_), hpad _ (getD_mem _ _ _ ?_)⟩ <;>
      (rw [hlen]; exact cIdx_lt _ hn _)
  | false =>
    have hlen : (effPadded path o).length = path.length + 2 :=
      effPadded_length_open path o hc
    have hi2 : i < path.length - 1 := by
      rw [lastSeg, hc] at hi
      simpa [effPts_length] using hi
    simp only [Bool.false_eq_true, if_false]
    refine ⟨hpad _ (getD_mem _ _ _ ?_), hpad _ (getD_mem _ _ _ ?_),
      hpad _ (getD_mem _ _ _ ?_), hpad _ (getD_mem _ _ _ ?_)⟩ <;> omega

theorem realPtOf_take {dim : ℕ} {P : Point} (h : RealPtOf dim P) :
    RealPtOf dim (P.take dim) := by
  obtain ⟨q, rfl, hq⟩ := h
  exact ⟨q.take dim, by rw [List.map_take], by simp [hq]⟩

theorem realPtOf_coords {dim : ℕ} {P : Point} (h : RealPtOf dim P) :
    ∀ c ∈ P, ∃ x : ℝ, c = some x := by
  obtain ⟨q, rfl, _⟩ := h
  intro c hc
  obtain ⟨x, _, rfl⟩ := List.mem_map.mp hc
  exact ⟨x, rfl⟩

theorem segData_total (path : List (List ℝ)) (o : CatmullRomOptions)
    (h2 : 2 ≤ path.length)
    (hdim : ∀ p ∈ path, effDim path o ≤ p.length)
    (he : 0 < o.epsilon)
    (ha : 0 ≤ resolveAlpha o.alpha o.parametrization)
    (i : ℕ) (hi : i < lastSeg path o) :
    ∀ pr ∈ segData o.closed (effPadded path o) (effPts path o).length
        o.samples (effDim path o) (resolveAlpha o.alpha o.parametrization)
        o.epsilon i,
      ∀ c ∈ pr.1, ∃ x : ℝ, c = some x := by
  obtain ⟨hw0, hw1, hw2, hw3⟩ := segWindow_realPt path o h2 hdim i hi
  obtain ⟨q0, e0, l0⟩ := hw0
  obtain ⟨q1, e1, l1⟩ := hw1
  obtain ⟨q2, e2, l2⟩ := hw2
  obtain ⟨q3, e3, l3⟩ := hw3
  intro pr hpr
  rw [segData] at hpr
  simp only [e0, e1, e2, e3] at hpr
  obtain ⟨a1, a2, a3, ha1, h12, h23, hraw⟩ :=
    rawKnots_real q0 q1 q2 q3 (resolveAlpha o.alpha o.parametrization) ha
  obtain ⟨b1, b2, b3, hg, hb1, hb2, hb3, hb12, hb23⟩ :=
    guardKnots_bounds a1 a2 a3 o.epsilon ha1 h12 h23 he
  rw [hraw, hg] at hpr
  rw [segSamples] at hpr
  obtain ⟨j, hj, rfl⟩ := List.mem_map.mp hpr
  rw [List.mem_range] at hj
  have hsamp : ((o.samples : ℝ)) ≠ 0 := by
    have : 0 < o.samples := Nat.pos_of_ne_zero (by omega)
    exact_mod_cast Nat.pos_iff_ne_zero.mp this
  intro c hc
  simp only [jsub_some, jmul_some] at hc
  rw [jdiv_some_of_ne _ _ hsamp] at hc
  simp only [jadd_some] at hc
  exact catmullRomAt_total _ _ _ _ 0 b1 b2 b3 _ (effDim path o) o.epsilon he
    (realPtOf_getD ⟨q0, rfl, l0⟩) (realPtOf_getD ⟨q1, rfl, l1⟩)
    (realPtOf_getD ⟨q2, rfl, l2⟩) (realPtOf_getD ⟨q3, rfl, l3⟩) c hc

theorem catmullRom_eq_main (path : List (List ℝ)) (o : CatmullRomOptions)
    (h2 : 2 ≤ path.length) (hd : dimCheckFails path o.dimension = false) :
    catmullRom path o = .ok (catmullRomMain path o) := by
  rw [catmullRom, if_neg (by omega), if_neg (by simp [hd])]

open Classical in
/-- The guard as the spec describes it for claim C2 ("t2's guard uses the
already-possibly-bumped t1; t3's guard uses the already-possibly-bumped
t2"): a chained variant comparing against and bumping from the
already-bumped knots.  Written from the spec's words, to be compared with
`guardKnots`, which is written from the source. -/
noncomputable def guardKnotsChained (k : RawKnots) (epsilon : ℝ) : GuardedKnots :=
  let dt1 := if jlt (jsub k.t1 k.t0) (some epsilon) then jadd k.t0 (some epsilon) else k.t1
  let dt2 := if jlt (jsub k.t2 dt1) (some epsilon) then jadd dt1 (some epsilon) else k.t2
  let dt3 := if jlt (jsub k.t3 dt2) (some epsilon) then jadd dt2 (some epsilon) else k.t3
  ⟨dt1, dt2, dt3⟩

/-- C6: a path with fewer than 2 points is returned unchanged as the
result's point sequence (coordinates injected into `JsNum`), with an empty
metadata sequence and segment-start-index sequence [0] when metadata was
requested, and no error is raised. -/
theorem catmullRom_short_path (path : List (List ℝ)) (o : CatmullRomOptions)
    (h : path.length < 2) :
    catmullRom path o = .ok
      { points := path.map fun p => p.map some,
        meta := if o.includeMeta then some [] else none,
        segmentStartIndices := if o.includeMeta then some [0] else none } := by
  rw [catmullRom, if_pos h]

/-- Witness for C6: the one-point path [[3]] is returned unchanged, with
metadata [] and segment start indices [0] since metadata was requested. -/
theorem catmullRom_short_path_witness :
    catmullRom [[(3 : ℝ)]] { includeMeta := true } = .ok
      { points := [[some 3]],
        meta := some [],
        segmentStartIndices := some [0] } := by
  rw [catmullRom_short_path [[(3 : ℝ)]] { includeMeta := true } (by norm_num)]
  rfl

/-- C10: the fewer-than-2-points pass-through takes precedence over
dimension validation: for every short path and every specified dimension —
even one exceeding a point's coordinate count — the pass-through result is
returned and the dimension error is never raised. -/
theorem catmullRom_short_path_ignores_dimension (path : List (List ℝ))
    (o : CatmullRomOptions) (d : ℕ) (h : path.length < 2)
    (hdim : o.dimension = some d) :
    catmullRom path o = .ok
      { points := path.map fun p => p.map some,
        meta := if o.includeMeta then some [] else none,
        segmentStartIndices := if o.includeMeta then some [0] else none } := by
  rw [catmullRom, if_pos h]

/-- Witness for C10: a single 2-D point with dimension 5 (more coordinates
than the point has) still passes through with no error. -/
theorem catmullRom_short_path_ignores_dimension_witness :
    catmullRom [[(0 : ℝ), 0]] { dimension := some 5 } = .ok
      { points := [[some 0, some 0]],
        meta := none,
        segmentStartIndices := none } := by
  rw [catmullRom_short_path_ignores_dimension [[(0 : ℝ), 0]]
    { dimension := some 5 } 5 (by norm_num) rfl]
  rfl

/-- C7: for a path of at least 2 points with a specified dimension, the
call fails with the dimension-validation error exactly when some input
point has fewer coordinates than the dimension; otherwise it returns a
result and no such error is raised. -/
theorem catmullRom_dim_validation (path : List (List ℝ))
    (o : CatmullRomOptions) (d : ℕ) (h2 : 2 ≤ path.length)
    (hdim : o.dimension = some d) :
    ((∃ p ∈ path, p.length < d) →
        catmullRom path o = .error "Dimension min size error") ∧
      ((∀ p ∈ path, d ≤ p.length) → ∃ r, catmullRom path o = .ok r) := by
  constructor
  · rintro ⟨p, hp, hlen⟩
    have hfail : dimCheckFails path o.dimension = true := by
      rw [hdim, dimCheckFails]
      simp only [Bool.and_eq_true, bne_iff_ne, ne_eq, Bool.not_eq_true',
        List.all_eq_false]
      exact ⟨by omega, p, hp, by simp [isMinSizeArray]; omega⟩
    rw [catmullRom, if_neg (by omega), if_pos hfail]
  · intro hall
    have hok : dimCheckFails path o.dimension = false := by
      rw [hdim, dimCheckFails]
      have hall2 : (path.all fun p => isMinSizeArray p d) = true := by
        rw [List.all_eq_true]
        intro p hp
        simpa [isMinSizeArray] using hall p hp
      simp [hall2]
    exact ⟨catmullRomMain path o, catmullRom_eq_main path o h2 hok⟩

/-- Witness for C7, error side: 2-D points with dimension 5 fail with the
dimension error; all-long-enough side: dimension 2 succeeds. -/
theorem catmullRom_dim_validation_witness :
    catmullRom [[(0 : ℝ), 0], [1, 1]] { dimension := some 5 } =
        .error "Dimension min size error" ∧
      ∃ r, catmullRom [[(0 : ℝ), 0], [1, 1]] { dimension := some 2 } = .ok r := by
  constructor
  · exact (catmullRom_dim_validation [[(0 : ℝ), 0], [1, 1]]
      { dimension := some 5 } 5 (by norm_num) rfl).1
      ⟨[(0 : ℝ), 0], by simp, by norm_num⟩
  · exact (catmullRom_dim_validation [[(0 : ℝ), 0], [1, 1]]
      { dimension := some 2 } 2 (by norm_num) rfl).2
      (by intro p hp; simp at hp; rcases hp with h | h <;> simp [h])

open Classical in
theorem guardKnots_dt1 (k : RawKnots) (eps : ℝ) :
    (guardKnots k eps).dt1 =
      if jlt (jsub k.t1 k.t0) (some eps) then jadd k.t0 (some eps) else k.t1 := rfl

open Classical in
theorem guardKnots_dt2 (k : RawKnots) (eps : ℝ) :
    (guardKnots k eps).dt2 =
      if jlt (jsub k.t2 k.t1) (some eps) then jadd k.t1 (some eps) else k.t2 := rfl

open Classical in
theorem guardKnots_dt3 (k : RawKnots) (eps : ℝ) :
    (guardKnots k eps).dt3 =
      if jlt (jsub k.t3 k.t2) (some eps) then jadd k.t2 (some eps) else k.t3 := rfl

/-- C2 counterexample: for the knot vector t0=t1=t2=t3=0 (the raw knots of
any segment whose four control points coincide) and epsilon = 1, the code's
guard (`guardKnots`, written from the source) bumps dt2 to the ORIGINAL
t1 + epsilon = 1, whereas the claim's chained guard (`guardKnotsChained`,
written from the spec's words) would yield dt1 + epsilon = 2.  The claim
that t2's guard compares against and bumps from the already-bumped t1 is
therefore false of the code; likewise dt3 (code 1, chained 3). -/
theorem guardKnots_not_chained_cex :
    (guardKnots ⟨some 0, some 0, some 0, some 0⟩ 1).dt2 = some 1 ∧
      (guardKnotsChained ⟨some 0, some 0, some 0, some 0⟩ 1).dt2 = some 2 ∧
      (guardKnots ⟨some 0, some 0, some 0, some 0⟩ 1).dt3 = some 1 ∧
      (guardKnotsChained ⟨some 0, some 0, some 0, some 0⟩ 1).dt3 = some 3 ∧
      (guardKnots ⟨some 0, some 0, some 0, some 0⟩ 1).dt2 ≠
        (guardKnotsChained ⟨some 0, some 0, some 0, some 0⟩ 1).dt2 := by
  norm_num [guardKnots, guardKnotsChained, Option.some.injEq]

/-- C2 amended: each guard compares a delta of the ORIGINAL knots and bumps
from the ORIGINAL earlier knot: dt1 depends only on (t0, t1), dt2 only on
(t1, t2) — not on the possibly-bumped dt1 — and dt3 only on (t2, t3).  The
claim's description of dt1 (guard against the original t0) is retained. -/
theorem guardKnots_uses_original_knots (k k' : RawKnots) (eps : ℝ) :
    (k.t0 = k'.t0 → k.t1 = k'.t1 →
      (guardKnots k eps).dt1 = (guardKnots k' eps).dt1) ∧
    (k.t1 = k'.t1 → k.t2 = k'.t2 →
      (guardKnots k eps).dt2 = (guardKnots k' eps).dt2) ∧
    (k.t2 = k'.t2 → k.t3 = k'.t3 →
      (guardKnots k eps).dt3 = (guardKnots k' eps).dt3) := by
  refine ⟨?_, ?_, ?_⟩ <;> (intro h1 h2)
  · rw [guardKnots_dt1, guardKnots_dt1, h1, h2]
  · rw [guardKnots_dt2, guardKnots_dt2, h1, h2]
  · rw [guardKnots_dt3, guardKnots_dt3, h1, h2]

/-- Witness for the amended C2: two knot vectors with wildly different t0
and t3 but equal (t1, t2) get the same dt2. -/
theorem guardKnots_uses_original_knots_witness :
    (guardKnots ⟨some 0, some 0, some 0, some 0⟩ 1).dt2 =
      (guardKnots ⟨some 5, some 0, some 0, some 9⟩ 1).dt2 :=
  (guardKnots_uses_original_knots ⟨some 0, some 0, some 0, some 0⟩
    ⟨some 5, some 0, some 0, some 9⟩ 1).2.1 rfl rfl

/-- C3 counterexample: for the all-coincident segment window (raw knots of
four copies of the point [0], e.g. segment 0 of the open path [[0],[0]] in
duplicate endpoint mode) with alpha = 1/2 and epsilon = 1 > 0, the guarded
knots are dt1 = dt2 = dt3 = 1, so the deltas dt2 - dt1 and dt3 - dt2 are
0 < epsilon: after the guards the consecutive knot deltas are NOT all at
least epsilon. -/
theorem guarded_deltas_below_epsilon_cex :
    ∃ b1 b2 b3 : ℝ,
      guardKnots (rawKnots [some (0 : ℝ)] [some (0 : ℝ)] [some (0 : ℝ)]
          [some (0 : ℝ)] (1 / 2)) 1 = ⟨some b1, some b2, some b3⟩ ∧
        b2 - b1 < 1 ∧ b3 - b2 < 1 := by
  refine ⟨1, 1, 1, ?_, by norm_num, by norm_num⟩
  have hdist : distance [some (0 : ℝ)] [some (0 : ℝ)] = some 0 := by
    rw [distance]
    norm_num [List.range_succ, List.getD_cons_zero]
    rw [jsqrt_some_of_nonneg 0 le_rfl, Real.sqrt_zero]
  have hpow : jpow (some (0 : ℝ)) (some (1 / 2 : ℝ)) = some 0 := by
    norm_num [jpow]
  rw [rawKnots]
  rw [hdist, hpow]
  rw [guardKnots]
  norm_num

/-- C3 amended: for any four control points with real coordinates, any
alpha ≥ 0 and any epsilon > 0: the raw knots are finite reals
0 = t0 ≤ t1 ≤ t2 ≤ t3; after the guards, dt1 ≥ t0 + epsilon, and each later
guarded knot exceeds the ORIGINAL earlier knot by at least epsilon
(dt2 ≥ t1 + epsilon, dt3 ≥ t2 + epsilon); the guarded knots are monotone
(dt1 ≤ dt2 ≤ dt3), so the guarded deltas are ≥ 0 — but, per the
counterexample, those deltas can be smaller than epsilon. -/
theorem guarded_knot_bounds (q0 q1 q2 q3 : List ℝ) (alpha eps : ℝ)
    (ha : 0 ≤ alpha) (he : 0 < eps) :
    ∃ a1 a2 a3 b1 b2 b3 : ℝ,
      rawKnots (q0.map some) (q1.map some) (q2.map some) (q3.map some)
          alpha = ⟨some 0, some a1, some a2, some a3⟩ ∧
      guardKnots (rawKnots (q0.map some) (q1.map some) (q2.map some)
          (q3.map some) alpha) eps = ⟨some b1, some b2, some b3⟩ ∧
      0 ≤ a1 ∧ a1 ≤ a2 ∧ a2 ≤ a3 ∧
      0 + eps ≤ b1 ∧ a1 + eps ≤ b2 ∧ a2 + eps ≤ b3 ∧
      b1 ≤ b2 ∧ b2 ≤ b3 := by
  obtain ⟨a1, a2, a3, ha1, h12, h23, hraw⟩ :=
    rawKnots_real q0 q1 q2 q3 alpha ha
  obtain ⟨b1, b2, b3, hg, hb1, hb2, hb3, hb12, hb23⟩ :=
    guardKnots_bounds a1 a2 a3 eps ha1 h12 h23 he
  exact ⟨a1, a2, a3, b1, b2, b3, hraw, by rw [hraw]; exact hg,
    ha1, h12, h23, by linarith, hb2, hb3, hb12, hb23⟩

/-- Witness for the amended C3 at four coincident 1-D control points,
alpha = 1/2, epsilon = 1. -/
theorem guarded_knot_bounds_witness :
    ∃ a1 a2 a3 b1 b2 b3 : ℝ,
      rawKnots ([(0 : ℝ)].map some) ([(0 : ℝ)].map some) ([(0 : ℝ)].map some)
          ([(0 : ℝ)].map some) (1 / 2) = ⟨some 0, some a1, some a2, some a3⟩ ∧
      guardKnots (rawKnots ([(0 : ℝ)].map some) ([(0 : ℝ)].map some)
          ([(0 : ℝ)].map some) ([(0 : ℝ)].map some) (1 / 2)) 1 =
        ⟨some b1, some b2, some b3⟩ ∧
      0 ≤ a1 ∧ a1 ≤ a2 ∧ a2 ≤ a3 ∧
      0 + 1 ≤ b1 ∧ a1 + 1 ≤ b2 ∧ a2 + 1 ≤ b3 ∧
      b1 ≤ b2 ∧ b2 ≤ b3 :=
  guarded_knot_bounds [(0 : ℝ)] [(0 : ℝ)] [(0 : ℝ)] [(0 : ℝ)] (1 / 2) 1
    (by norm_num) (by norm_num)

theorem catmullRom_alpha_congr (path : List (List ℝ)) (o : CatmullRomOptions)
    (a1 a2 : Option ℝ) (s1 s2 : String)
    (h : resolveAlpha a1 s1 = resolveAlpha a2 s2) :
    catmullRom path { o with alpha := a1, parametrization := s1 } =
      catmullRom path { o with alpha := a2, parametrization := s2 } := by
  simp only [catmullRom, catmullRomMain, finalState, initState, lastSeg,
    effPadded, effPts, effDim, dimCheckFails, h]

/-- C8: without an explicit alpha, parametrization "uniform" gives the same
result as explicit alpha 0, "chordal" the same as alpha 1, "centripetal" and
any unrecognized name the same as alpha 0.5; and an explicit alpha takes
precedence over any parametrization name. -/
theorem catmullRom_parametrization_alpha (path : List (List ℝ))
    (o : CatmullRomOptions) :
    (∀ s : String,
      catmullRom path { o with alpha := none, parametrization := "uniform" } =
        catmullRom path { o with alpha := some 0, parametrization := s }) ∧
    (∀ s : String,
      catmullRom path { o with alpha := none, parametrization := "chordal" } =
        catmullRom path { o with alpha := some 1, parametrization := s }) ∧
    (∀ s : String,
      catmullRom path
          { o with alpha := none, parametrization := "centripetal" } =
        catmullRom path { o with alpha := some 0.5, parametrization := s }) ∧
    (∀ s t : String, s ≠ "uniform" → s ≠ "chordal" →
      catmullRom path { o with alpha := none, parametrization := s } =
        catmullRom path { o with alpha := some 0.5, parametrization := t }) ∧
    (∀ (a : ℝ) (s t : String),
      catmullRom path { o with alpha := some a, parametrization := s } =
        catmullRom path { o with alpha := some a, parametrization := t }) := by
  refine ⟨?_, ?_, ?_, ?_, ?_⟩
  · intro s
    exact catmullRom_alpha_congr path o none (some 0) "uniform" s (by
      simp [resolveAlpha])
  · intro s
    exact catmullRom_alpha_congr path o none (some 1) "chordal" s (by
      simp [resolveAlpha])
  · intro s
    exact catmullRom_alpha_congr path o none (some 0.5) "centripetal" s (by
      simp [resolveAlpha])
  · intro s t h1 h2
    exact catmullRom_alpha_congr path o none (some 0.5) s t (by
      simp [resolveAlpha, h1, h2])
  · intro a s t
    exact catmullRom_alpha_congr path o (some a) (some a) s t rfl

/-- Witness for C8: at a concrete path, the unrecognized name "foo" behaves
like alpha 0.5 and explicit alpha overrides the name "chordal". -/
theorem catmullRom_parametrization_alpha_witness :
    catmullRom [[(0 : ℝ)], [1]] { alpha := none, parametrization := "foo" } =
      catmullRom [[(0 : ℝ)], [1]]
        { alpha := some 0.5, parametrization := "chordal" } :=
  (catmullRom_parametrization_alpha [[(0 : ℝ)], [1]] {}).2.2.2.1 "foo" "chordal"
    (by decide) (by decide)

theorem catmullRomMain_points (path : List (List ℝ)) (o : CatmullRomOptions) :
    (catmullRomMain path o).points =
      if ¬o.closed ∧ o.includeOriginal then
        (finalState path o).out ++
          [((effPts path o).getD ((effPts path o).length - 1) []).take
            (effDim path o)]
      else (finalState path o).out := rfl

theorem catmullRomMain_meta (path : List (List ℝ)) (o : CatmullRomOptions) :
    (catmullRomMain path o).meta =
      if o.includeMeta then
        some (if ¬o.closed ∧ o.includeOriginal ∧ o.includeMeta then
          (finalState path o).meta ++ [⟨lastSeg path o - 1, some 1⟩]
        else (finalState path o).meta)
      else none := rfl

theorem catmullRomMain_ssi (path : List (List ℝ)) (o : CatmullRomOptions) :
    (catmullRomMain path o).segmentStartIndices =
      if o.includeMeta then some (finalState path o).ssi else none := rfl

theorem initState_out (path : List (List ℝ)) (o : CatmullRomOptions) :
    (initState path o).out =
      if ¬o.closed ∧ o.includeOriginal then
        [((effPts path o).getD 0 []).take (effDim path o)]
      else [] := by
  rw [initState]
  split_ifs <;> rfl

theorem initState_meta (path : List (List ℝ)) (o : CatmullRomOptions) :
    (initState path o).meta =
      if ¬o.closed ∧ o.includeOriginal then
        (if o.includeMeta then [⟨0, some 0⟩] else [])
      else [] := by
  rw [initState]
  split_ifs <;> rfl

theorem initState_ssi (path : List (List ℝ)) (o : CatmullRomOptions) :
    (initState path o).ssi =
      if ¬o.closed ∧ o.includeOriginal then
        (if o.includeMeta then [0] else [])
      else [] := by
  rw [initState]
  split_ifs <;> rfl

theorem initState_out_length (path : List (List ℝ)) (o : CatmullRomOptions) :
    (initState path o).out.length =
      if ¬o.closed ∧ o.includeOriginal then 1 else 0 := by
  rw [initState_out]
  split_ifs <;> rfl

theorem finalState_out (path : List (List ℝ)) (o : CatmullRomOptions) :
    (finalState path o).out = (initState path o).out ++
      ((List.range (lastSeg path o)).flatMap fun i =>
        (segData o.closed (effPadded path o) (effPts path o).length o.samples
          (effDim path o) (resolveAlpha o.alpha o.parametrization) o.epsilon
          i).map Prod.fst) := by
  rw [finalState]
  exact foldl_loopStep_out o.closed o.includeMeta (effPadded path o)
    (effPts path o).length o.samples (effDim path o)
    (resolveAlpha o.alpha o.parametrization) o.epsilon
    (List.range (lastSeg path o)) (initState path o)

theorem finalState_out_length (path : List (List ℝ)) (o : CatmullRomOptions) :
    (finalState path o).out.length =
      (initState path o).out.length + lastSeg path o * o.samples := by
  rw [finalState, foldl_loopStep_out_length, List.length_range]

theorem finalState_ssi (path : List (List ℝ)) (o : CatmullRomOptions)
    (hm : o.includeMeta = true) :
    (finalState path o).ssi = (initState path o).ssi ++
      (List.range (lastSeg path o)).map
        (fun i => (initState path o).out.length + i * o.samples) := by
  rw [finalState, hm]
  exact foldl_loopStep_ssi_true o.closed (effPadded path o)
    (effPts path o).length o.samples (effDim path o)
    (resolveAlpha o.alpha o.parametrization) o.epsilon (lastSeg path o)
    (initState path o)

theorem finalState_meta (path : List (List ℝ)) (o : CatmullRomOptions)
    (hm : o.includeMeta = true) :
    (finalState path o).meta = (initState path o).meta ++
      ((List.range (lastSeg path o)).flatMap fun i =>
        (segData o.closed (effPadded path o) (effPts path o).length o.samples
          (effDim path o) (resolveAlpha o.alpha o.parametrization) o.epsilon
          i).map (fun pr => ⟨i, pr.2⟩)) := by
  rw [finalState, hm]
  exact foldl_loopStep_meta_true o.closed (effPadded path o)
    (effPts path o).length o.samples (effDim path o)
    (resolveAlpha o.alpha o.parametrization) o.epsilon
    (List.range (lastSeg path o)) (initState path o)

/-- C1: for a path of n ≥ 2 points whose dimension check passes: when the
curve is open the output has (n-1)*samples points, plus 2 more when
includeOriginal is set; when it is closed the output has n*samples points
(proved for every n ≥ 2, which covers the claimed n ≥ 3). -/
theorem catmullRom_output_length (path : List (List ℝ))
    (o : CatmullRomOptions) (h2 : 2 ≤ path.length)
    (hd : dimCheckFails path o.dimension = false) :
    ∃ r, catmullRom path o = .ok r ∧
      (o.closed = false →
        r.points.length = (path.length - 1) * o.samples +
          (if o.includeOriginal then 2 else 0)) ∧
      (o.closed = true → r.points.length = path.length * o.samples) := by
  refine ⟨catmullRomMain path o, catmullRom_eq_main path o h2 hd, ?_, ?_⟩
  · intro hc
    rw [catmullRomMain_points]
    by_cases ho : o.includeOriginal = true
    · have hcond : ¬o.closed = true ∧ o.includeOriginal = true := by
        simp [ho, hc]
      rw [if_pos hcond, List.length_append, finalState_out_length,
        initState_out_length, if_pos hcond, if_pos ho]
      simp only [lastSeg, hc, Bool.false_eq_true, if_false, effPts_length,
        List.length_cons, List.length_nil]
      omega
    · have hcond : ¬(¬o.closed = true ∧ o.includeOriginal = true) := by
        simp [ho]
      rw [if_neg hcond, finalState_out_length, initState_out_length,
        if_neg hcond, if_neg ho]
      simp [lastSeg, hc, effPts_length]
  · intro hc
    rw [catmullRomMain_points]
    have hcond : ¬(¬o.closed = true ∧ o.includeOriginal = true) := by
      simp [hc]
    rw [if_neg hcond, finalState_out_length, initState_out_length,
      if_neg hcond]
    simp [lastSeg, hc, effPts_length]

/-- Witness for C1: the open 2-point path [[0],[0]] with samples = 1
(dimension check passes, no originals included). -/
theorem catmullRom_output_length_witness :
    ∃ r, catmullRom [[(0 : ℝ)], [0]] { samples := 1 } = .ok r ∧
      (({ samples := 1 } : CatmullRomOptions).closed = false →
        r.points.length = ([[(0 : ℝ)], [0]].length - 1) *
          ({ samples := 1 } : CatmullRomOptions).samples +
          (if ({ samples := 1 } : CatmullRomOptions).includeOriginal
            then 2 else 0)) ∧
      (({ samples := 1 } : CatmullRomOptions).closed = true →
        r.points.length = [[(0 : ℝ)], [0]].length *
          ({ samples := 1 } : CatmullRomOptions).samples) :=
  catmullRom_output_length [[(0 : ℝ)], [0]] { samples := 1 } (by norm_num) rfl

/-- C5 counterexample: for the open 2-point path [[0],[0]] with samples = 1,
includeOriginal and includeMeta both set, there is exactly one segment
(`lastSeg = 1`) but segmentStartIndices = [0, 1] has TWO entries: the
source (line 77) pushes an extra leading entry recording the prepended
original point, so "contains exactly one entry per segment" is false, and
entry i = 0 is the prefix point, not segment 0's first sample (which is at
entry 1). -/
theorem segmentStartIndices_extra_entry_cex :
    ∃ r, catmullRom [[(0 : ℝ)], [0]]
        { samples := 1, includeOriginal := true, includeMeta := true } =
          .ok r ∧
      r.segmentStartIndices = some [0, 1] ∧
      lastSeg [[(0 : ℝ)], [0]]
        { samples := 1, includeOriginal := true, includeMeta := true } = 1 := by
  refine ⟨_, catmullRom_eq_main _ _ (by norm_num) rfl, ?_,
    by simp [lastSeg, effPts_length]⟩
  rw [catmullRomMain_ssi, if_pos rfl, finalState_ssi _ _ rfl, initState_ssi,
    initState_out_length]
  have hls : lastSeg [[(0 : ℝ)], [0]]
      { samples := 1, includeOriginal := true, includeMeta := true } = 1 := by
    simp [lastSeg, effPts_length]
  rw [hls]
  norm_num [List.range_succ]

/-- C5 amended: with metadata requested, `segmentStartIndices` is an extra
leading 0 entry exactly when the curve is open and includeOriginal is set
(recording the prepended original point), followed by one entry per
segment; segment i's entry is p + i*samples where p is the prefix length
(1 with the prepended point, 0 without), and that is the output index of
segment i's first sample: the output is the prefix, then the segments'
blocks of exactly `samples` points each in order, then the appended
original point. -/
theorem segmentStartIndices_shape (path : List (List ℝ))
    (o : CatmullRomOptions) (h2 : 2 ≤ path.length)
    (hd : dimCheckFails path o.dimension = false)
    (hm : o.includeMeta = true) :
    ∃ r, catmullRom path o = .ok r ∧
      r.segmentStartIndices = some (
        (if ¬o.closed ∧ o.includeOriginal then [0] else []) ++
          (List.range (lastSeg path o)).map
            (fun i => (if ¬o.closed ∧ o.includeOriginal then 1 else 0) +
              i * o.samples)) ∧
      r.points = ((if ¬o.closed ∧ o.includeOriginal then
          [((effPts path o).getD 0 []).take (effDim path o)] else []) ++
        ((List.range (lastSeg path o)).flatMap fun i =>
          (segData o.closed (effPadded path o) (effPts path o).length
            o.samples (effDim path o) (resolveAlpha o.alpha o.parametrization)
            o.epsilon i).map Prod.fst)) ++
        (if ¬o.closed ∧ o.includeOriginal then
          [((effPts path o).getD ((effPts path o).length - 1) []).take
            (effDim path o)] else []) ∧
      (∀ i : ℕ, (segData o.closed (effPadded path o) (effPts path o).length
        o.samples (effDim path o) (resolveAlpha o.alpha o.parametrization)
        o.epsilon i).length = o.samples) := by
  refine ⟨_, catmullRom_eq_main path o h2 hd, ?_, ?_,
    fun i => segData_length _ _ _ _ _ _ _ _⟩
  · rw [catmullRomMain_ssi, if_pos hm, finalState_ssi path o hm,
      initState_ssi, initState_out_length, hm]
    simp only [if_true]
  · rw [catmullRomMain_points, finalState_out, initState_out]
    split_ifs with h
    · rfl
    · simp

/-- Witness for the amended C5: for [[0],[0]] with samples = 1 and metadata
(no includeOriginal), the segment start indices are [0]. -/
theorem segmentStartIndices_shape_witness :
    ∃ r, catmullRom [[(0 : ℝ)], [0]] { samples := 1, includeMeta := true } =
        .ok r ∧ r.segmentStartIndices = some [0] := by
  obtain ⟨r, h1, h2, _, _⟩ := segmentStartIndices_shape [[(0 : ℝ)], [0]]
    { samples := 1, includeMeta := true } (by norm_num) rfl rfl
  refine ⟨r, h1, ?_⟩
  rw [h2]
  have hls : lastSeg [[(0 : ℝ)], [0]] { samples := 1, includeMeta := true } = 1 := by
    simp [lastSeg, effPts_length]
  rw [hls]
  norm_num [List.range_succ]

theorem effPts_getD_zero (path : List (List ℝ)) (o : CatmullRomOptions)
    (h : 0 < path.length) :
    (effPts path o).getD 0 [] =
      ((path.headD []).take (effDim path o)).map some := by
  cases path with
  | nil => simp at h
  | cons p t => simp [effPts]

theorem effPts_getD_last (path : List (List ℝ)) (o : CatmullRomOptions)
    (h : 0 < path.length) :
    (effPts path o).getD ((effPts path o).length - 1) [] =
      ((path.getLastD []).take (effDim path o)).map some := by
  have hlt2 : path.length - 1 < path.length := by omega
  rw [effPts_length, effPts, List.getD_eq_getElem?_getD, List.getElem?_map,
    List.getElem?_eq_getElem hlt2, List.getLastD_eq_getLast?,
    List.getLast?_eq_getElem?, List.getElem?_eq_getElem hlt2]
  simp

theorem take_effPts_pt (p : List ℝ) (dim : ℕ) :
    ((p.take dim).map some).take dim = (p.take dim).map some := by
  rw [← List.map_take, List.take_take, Nat.min_self]

/-- C9: on an open curve with includeOriginal set, the result's first point
is the first real input point (dimension-clamped), placed before all
sampled output and tagged segment 0, u = 0 when metadata is requested; its
last point is the last real input point, placed after all sampled output
and tagged with the final segment index and u = 1; and when closed = true,
includeOriginal has no effect on the result. -/
theorem includeOriginal_endpoints (path : List (List ℝ))
    (o : CatmullRomOptions) (h2 : 2 ≤ path.length)
    (hd : dimCheckFails path o.dimension = false) :
    (o.closed = false → o.includeOriginal = true →
      ∃ r, catmullRom path o = .ok r ∧
        r.points.head? =
          some (((path.headD []).take (effDim path o)).map some) ∧
        r.points.getLast? =
          some (((path.getLastD []).take (effDim path o)).map some) ∧
        (o.includeMeta = true → ∃ m, r.meta = some m ∧
          m.head? = some ⟨0, some 0⟩ ∧
          m.getLast? = some ⟨lastSeg path o - 1, some 1⟩)) ∧
    (o.closed = true → ∀ b : Bool,
      catmullRom path { o with includeOriginal := b } = catmullRom path o) := by
  constructor
  · intro hc ho
    have hcond : ¬o.closed = true ∧ o.includeOriginal = true := by
      simp [hc, ho]
    refine ⟨_, catmullRom_eq_main path o h2 hd, ?_, ?_, ?_⟩
    · rw [catmullRomMain_points, if_pos hcond, finalState_out, initState_out,
        if_pos hcond, effPts_getD_zero path o (by omega), take_effPts_pt]
      rfl
    · rw [catmullRomMain_points, if_pos hcond,
        effPts_getD_last path o (by omega), take_effPts_pt]
      exact List.getLast?_concat _
    · intro hm
      rw [catmullRomMain_meta, if_pos hm, if_pos ⟨hcond.1, hcond.2, hm⟩,
        finalState_meta path o hm, initState_meta, if_pos hcond, hm,
        if_pos rfl]
      refine ⟨_, rfl, ?_, ?_⟩
      · rfl
      · exact List.getLast?_concat _
  · intro hc b
    simp [catmullRom, catmullRomMain, finalState, initState, lastSeg,
      effPadded, effPts, effDim, dimCheckFails, hc]

/-- Witness for C9 at the open path [[0],[0]] with includeOriginal and
metadata. -/
theorem includeOriginal_endpoints_witness :
    ∃ r, catmullRom [[(0 : ℝ)], [0]]
        { samples := 1, includeOriginal := true, includeMeta := true } =
          .ok r ∧
      r.points.head? = some [some 0] ∧
      r.points.getLast? = some [some 0] ∧
      ∃ m, r.meta = some m ∧ m.head? = some ⟨0, some 0⟩ ∧
        m.getLast? = some ⟨0, some 1⟩ := by
  obtain ⟨r, hr, hh, hl, hmeta⟩ :=
    (includeOriginal_endpoints [[(0 : ℝ)], [0]]
      { samples := 1, includeOriginal := true, includeMeta := true }
      (by norm_num) rfl).1 rfl rfl
  obtain ⟨m, hm, hmh, hml⟩ := hmeta rfl
  have hls : lastSeg [[(0 : ℝ)], [0]]
      { samples := 1, includeOriginal := true, includeMeta := true } = 1 := by
    simp [lastSeg, effPts_length]
  refine ⟨r, hr, ?_, ?_, m, hm, hmh, ?_⟩
  · simpa [effDim] using hh
  · simpa [effDim] using hl
  · rw [hml, hls]

/-- C4 amended: for a path of n ≥ 2 points whose dimension check passes and
whose points all have at least the effective dimension, with epsilon > 0 and
effective alpha ≥ 0, evaluation raises no error and every OUTPUT POINT
COORDINATE is a finite real (never NaN, infinite or undefined) — including
for coincident or near-coincident points.  The metadata `u` values are NOT
covered: per the counterexample they can be non-finite (NaN). -/
theorem catmullRom_coords_finite (path : List (List ℝ))
    (o : CatmullRomOptions) (h2 : 2 ≤ path.length)
    (hd : dimCheckFails path o.dimension = false) (he : 0 < o.epsilon)
    (ha : 0 ≤ resolveAlpha o.alpha o.parametrization)
    (hdim : ∀ p ∈ path, effDim path o ≤ p.length) :
    ∃ r, catmullRom path o = .ok r ∧
      ∀ pt ∈ r.points, ∀ c ∈ pt, ∃ x : ℝ, c = some x := by
  refine ⟨_, catmullRom_eq_main path o h2 hd, ?_⟩
  have hflat : ∀ pt ∈ ((List.range (lastSeg path o)).flatMap fun i =>
      (segData o.closed (effPadded path o) (effPts path o).length o.samples
        (effDim path o) (resolveAlpha o.alpha o.parametrization) o.epsilon
        i).map Prod.fst), ∀ c ∈ pt, ∃ x : ℝ, c = some x := by
    intro pt hpt c hc
    rw [List.mem_flatMap] at hpt
    obtain ⟨i, hi, hpt⟩ := hpt
    rw [List.mem_range] at hi
    obtain ⟨pr, hpr, rfl⟩ := List.mem_map.mp hpt
    exact segData_total path o h2 hdim he ha i hi pr hpr c hc
  have hpts0 : ∀ c ∈ ((effPts path o).getD 0 []).take (effDim path o),
      ∃ x : ℝ, c = some x :=
    realPtOf_coords (realPtOf_take (effPts_realPt path o hdim _
      (getD_mem _ 0 [] (by rw [effPts_length]; omega))))
  have hptsN : ∀ c ∈ ((effPts path o).getD ((effPts path o).length - 1)
      []).take (effDim path o), ∃ x : ℝ, c = some x :=
    realPtOf_coords (realPtOf_take (effPts_realPt path o hdim _
      (getD_mem _ _ [] (by rw [effPts_length]; omega))))
  intro pt hpt
  rw [catmullRomMain_points] at hpt
  split_ifs at hpt with h
  · rw [finalState_out, initState_out, if_pos h] at hpt
    simp only [List.mem_append, List.mem_singleton, List.mem_cons,
      List.not_mem_nil, or_false] at hpt
    rcases hpt with (h0 | hf) | hN
    · exact h0 ▸ hpts0
    · exact hflat pt hf
    · exact hN ▸ hptsN
  · rw [finalState_out, initState_out, if_neg h, List.nil_append] at hpt
    exact hflat pt hpt

/-- Witness for the amended C4: the degenerate path [[0],[0]] (two
coincident points) with samples = 1, alpha = 1/2, epsilon = 1. -/
theorem catmullRom_coords_finite_witness :
    ∃ r, catmullRom [[(0 : ℝ)], [0]]
        { samples := 1, alpha := some (1 / 2), epsilon := 1 } = .ok r ∧
      ∀ pt ∈ r.points, ∀ c ∈ pt, ∃ x : ℝ, c = some x :=
  catmullRom_coords_finite [[(0 : ℝ)], [0]]
    { samples := 1, alpha := some (1 / 2), epsilon := 1 } (by norm_num) rfl
    (by norm_num) (by norm_num [resolveAlpha])
    (by intro p hp; simp only [List.mem_cons, List.not_mem_nil, or_false] at hp
        rcases hp with h | h <;> subst h <;> simp [effDim])

theorem distance_deg : distance [some (0 : ℝ)] [some (0 : ℝ)] = some 0 := by
  rw [distance]
  norm_num [List.range_succ, List.getD_cons_zero]
  rw [jsqrt_some_of_nonneg 0 le_rfl, Real.sqrt_zero]

theorem jpow_zero_half : jpow (some (0 : ℝ)) (some (1 / 2 : ℝ)) = some 0 := by
  norm_num [jpow]

theorem rawKnots_deg :
    rawKnots [some (0 : ℝ)] [some (0 : ℝ)] [some (0 : ℝ)] [some (0 : ℝ)]
      (1 / 2) = ⟨some 0, some 0, some 0, some 0⟩ := by
  rw [rawKnots, distance_deg, jpow_zero_half]
  norm_num

theorem guardKnots_deg :
    guardKnots ⟨some (0 : ℝ), some 0, some 0, some 0⟩ 1 =
      ⟨some 1, some 1, some 1⟩ := by
  rw [guardKnots]
  norm_num

theorem lerpTimed_deg_far :
    lerpTimed (some (0 : ℝ)) (some 0) (some 0) (some 1) (some 1) 1 =
      some 0 := by
  rw [lerpTimed]
  simp only [jsub_some, jabs_some, jlt_some]
  rw [if_neg (by norm_num)]
  rw [jdiv_some_of_ne _ _ (by norm_num : (1 : ℝ) - 0 ≠ 0)]
  norm_num

theorem lerpTimed_deg_near :
    lerpTimed (some (0 : ℝ)) (some 0) (some 1) (some 1) (some 1) 1 =
      some 0 := by
  rw [lerpTimed]
  simp only [jsub_some, jabs_some, jlt_some]
  rw [if_pos (by norm_num)]

theorem lerpVecTimed_deg_far :
    lerpVecTimed [some (0 : ℝ)] [some 0] (some 0) (some 1) (some 1) 1 1 =
      [some 0] := by
  simp only [lerpVecTimed, List.range_succ, List.range_zero, List.nil_append,
    List.map_cons, List.map_nil, List.getD_cons_zero]
  rw [lerpTimed_deg_far]

theorem lerpVecTimed_deg_near :
    lerpVecTimed [some (0 : ℝ)] [some 0] (some 1) (some 1) (some 1) 1 1 =
      [some 0] := by
  simp only [lerpVecTimed, List.range_succ, List.range_zero, List.nil_append,
    List.map_cons, List.map_nil, List.getD_cons_zero]
  rw [lerpTimed_deg_near]

theorem catmullRomAt_deg :
    catmullRomAt [some (0 : ℝ)] [some 0] [some 0] [some 0] (some 0) (some 1)
      (some 1) (some 1) (some 1) 1 1 = [some 0] := by
  simp only [catmullRomAt, lerpVecTimed_deg_far, lerpVecTimed_deg_near]

theorem segSamples_deg :
    segSamples [some (0 : ℝ)] [some 0] [some 0] [some 0] (some 0)
      ⟨some 1, some 1, some 1⟩ 1 1 1 = [([some 0], none)] := by
  rw [segSamples]
  norm_num [List.range_succ, jdiv, catmullRomAt_deg]

theorem segData_deg :
    segData false [[some (0 : ℝ)], [some 0], [some 0], [some 0]] 2 1 1
      (1 / 2) 1 0 = [([some 0], none)] := by
  rw [segData]
  have hw : segWindow false [[some (0 : ℝ)], [some 0], [some 0], [some 0]]
      2 0 = ([some 0], [some 0], [some 0], [some 0]) := by
    simp [segWindow]
  simp only [hw]
  rw [rawKnots_deg, guardKnots_deg]
  exact segSamples_deg

/-- C4 counterexample: the path [[0],[0]] of two coincident points with
samples = 1, alpha = 1/2, epsilon = 1 and metadata requested evaluates with
finite output coordinates, but the metadata entry of the single sample has
u = none, i.e. non-finite: in JS, u = (t - dt1)/(dt2 - dt1) = 0/0 = NaN
because the guarded knots satisfy dt2 = dt1.  The claim that evaluation
"never yields NaN/undefined values anywhere in the result (metadata
included)" is therefore false. -/
theorem catmullRom_meta_u_nonfinite_cex :
    catmullRom [[(0 : ℝ)], [0]]
        { samples := 1, alpha := some (1 / 2), epsilon := 1,
          includeMeta := true } =
      .ok { points := [[some 0]],
            meta := some [⟨0, none⟩],
            segmentStartIndices := some [0] } := by
  rw [catmullRom_eq_main [[(0 : ℝ)], [0]]
    { samples := 1, alpha := some (1 / 2), epsilon := 1, includeMeta := true }
    (by norm_num) rfl]
  congr 1
  have hpts : effPts [[(0 : ℝ)], [0]]
      { samples := 1, alpha := some (1 / 2), epsilon := 1,
        includeMeta := true } = [[some 0], [some 0]] := by
    simp [effPts, effDim]
  have heff : effDim [[(0 : ℝ)], [0]]
      { samples := 1, alpha := some (1 / 2), epsilon := 1,
        includeMeta := true } = 1 := by
    simp [effDim]
  have hpad : effPadded [[(0 : ℝ)], [0]]
      { samples := 1, alpha := some (1 / 2), epsilon := 1,
        includeMeta := true } =
      [[some 0], [some 0], [some 0], [some 0]] := by
    rw [effPadded, hpts]
    simp [padPts]
  have hls : lastSeg [[(0 : ℝ)], [0]]
      { samples := 1, alpha := some (1 / 2), epsilon := 1,
        includeMeta := true } = 1 := by
    simp [lastSeg, effPts_length]
  have hinit : initState [[(0 : ℝ)], [0]]
      { samples := 1, alpha := some (1 / 2), epsilon := 1,
        includeMeta := true } = ⟨[], [], []⟩ := by
    rw [initState, if_neg (by simp)]
  have hfinal : finalState [[(0 : ℝ)], [0]]
      { samples := 1, alpha := some (1 / 2), epsilon := 1,
        includeMeta := true } = ⟨[[some 0]], [⟨0, none⟩], [0]⟩ := by
    rw [finalState, hls, hinit]
    simp only [List.range_succ, List.range_zero, List.nil_append,
      List.foldl_cons, List.foldl_nil]
    rw [loopStep]
    rw [hpad, hpts, heff]
    have hn : ([[some (0 : ℝ)], [some 0]] : List Point).length = 2 := rfl
    rw [hn]
    have hra : resolveAlpha (some (1 / 2 : ℝ)) "centripetal" = 1 / 2 := rfl
    rw [hra, segData_deg]
    rfl
  simp only [catmullRomMain, hfinal]
  norm_num
